import Mathlib

/-!
Verification of the wahlen document store core: the identifier scheme
(src/src/untyped_ids.rs, src/src/ids.rs) and the optimistically concurrent
persistence engine (src/infra/src/documents.rs, src/infra/src/persistence.rs).

Rust strings are modelled as lists of bytes (`List Nat`, each element a byte
value), u64 values as `Nat` with explicit `% 2 ^ 64` where the source relies
on machine arithmetic, and the relational store as an association list from
the document's serialized id string to the stored document.
-/

/-! ## Big-endian positional encoding

`data_encoding::BASE32_DNSSEC` and `u64::to_be_bytes`/`from_be_bytes` both
read or write a number as fixed-width big-endian digits (digits base 32 for
the text encoding, base 256 for the byte encoding).  `digitsBE b w n` is the
`w` base-`b` digits of `n`, most significant first; `valueBE b ds` is the
number the digit list `ds` denotes. -/

/-- The number denoted by the base-`b` digit list `ds`, most significant
digit first. -/
def valueBE (b : Nat) (ds : List Nat) : Nat :=
  ds.foldl (fun acc d => acc * b + d) 0

/-- The `w` base-`b` digits of `n`, most significant first (the value kept is
`n % b ^ w`). -/
def digitsBE (b : Nat) : Nat → Nat → List Nat
  | 0, _ => []
  | w + 1, n => digitsBE b w (n / b) ++ [n % b]

theorem valueBE_nil (b : Nat) : valueBE b [] = 0 := rfl

theorem foldl_valueBE (b : Nat) :
    ∀ (l : List Nat) (a : Nat),
      l.foldl (fun acc d => acc * b + d) a = a * b ^ l.length + valueBE b l := by
  intro l
  induction l with
  | nil => intro a; simp [valueBE]
  | cons d t ih =>
    intro a
    have h1 : (d :: t).foldl (fun acc d => acc * b + d) a
        = t.foldl (fun acc d => acc * b + d) (a * b + d) := rfl
    have h2 : valueBE b (d :: t) = t.foldl (fun acc d => acc * b + d) d := by
      simp [valueBE]
    rw [h1, ih (a * b + d), h2, ih d]
    ring_nf
    simp [List.length_cons, pow_succ]
    ring

theorem valueBE_cons (b d : Nat) (t : List Nat) :
    valueBE b (d :: t) = d * b ^ t.length + valueBE b t := by
  have h : valueBE b (d :: t) = t.foldl (fun acc d => acc * b + d) d := by
    simp [valueBE]
  rw [h, foldl_valueBE]

theorem valueBE_append (b : Nat) (xs ys : List Nat) :
    valueBE b (xs ++ ys) = valueBE b xs * b ^ ys.length + valueBE b ys := by
  have h : valueBE b (xs ++ ys)
      = ys.foldl (fun acc d => acc * b + d) (valueBE b xs) := by
    simp [valueBE, List.foldl_append]
  rw [h, foldl_valueBE]

theorem valueBE_lt (b : Nat) :
    ∀ (ds : List Nat), (∀ d ∈ ds, d < b) → valueBE b ds < b ^ ds.length := by
  intro ds
  induction ds with
  | nil => intro _; simp [valueBE]
  | cons d t ih =>
    intro h
    have hd : d < b := h d (List.mem_cons_self d t)
    have ht : valueBE b t < b ^ t.length := ih fun x hx => h x (List.mem_cons_of_mem d hx)
    rw [valueBE_cons]
    have hd1 : d + 1 ≤ b := hd
    calc d * b ^ t.length + valueBE b t
        < d * b ^ t.length + b ^ t.length := by omega
      _ = (d + 1) * b ^ t.length := by ring
      _ ≤ b * b ^ t.length := Nat.mul_le_mul_right _ hd1
      _ = b ^ (t.length + 1) := by ring
      _ = b ^ (d :: t).length := by simp

theorem length_digitsBE (b : Nat) : ∀ (w n : Nat), (digitsBE b w n).length = w := by
  intro w
  induction w with
  | zero => intro n; rfl
  | succ w ih => intro n; simp [digitsBE, ih]

theorem digitsBE_mem_lt (b : Nat) (hb : 0 < b) :
    ∀ (w n : Nat), ∀ d ∈ digitsBE b w n, d < b := by
  intro w
  induction w with
  | zero => intro n d hd; simp [digitsBE] at hd
  | succ w ih =>
    intro n d hd
    simp only [digitsBE, List.mem_append, List.mem_singleton] at hd
    rcases hd with hd | hd
    · exact ih _ d hd
    · subst hd; exact Nat.mod_lt _ hb

theorem mod_base_mul (b q r m : Nat) (hr : r < b) :
    (b * q + r) % (b * m) = b * (q % m) + r := by
  rcases Nat.eq_zero_or_pos m with hm | hm
  · subst hm; simp [Nat.mod_zero]
  have hb : 0 < b := by omega
  conv_lhs => rw [show q = m * (q / m) + q % m from (Nat.div_add_mod q m).symm]
  have h1 : b * (m * (q / m) + q % m) + r
      = (b * (q % m) + r) + (b * m) * (q / m) := by ring
  rw [h1, Nat.add_mul_mod_self_left]
  apply Nat.mod_eq_of_lt
  have hq : q % m < m := Nat.mod_lt _ hm
  have hq1 : q % m + 1 ≤ m := hq
  calc b * (q % m) + r < b * (q % m) + b := by omega
    _ = b * (q % m + 1) := by ring
    _ ≤ b * m := Nat.mul_le_mul_left _ hq1

theorem valueBE_digitsBE (b : Nat) (hb : 0 < b) :
    ∀ (w n : Nat), valueBE b (digitsBE b w n) = n % b ^ w := by
  intro w
  induction w with
  | zero => intro n; simp [digitsBE, valueBE, Nat.mod_one]
  | succ w ih =>
    intro n
    rw [digitsBE, valueBE_append]
    simp only [List.length_singleton, pow_one]
    have h1 : valueBE b [n % b] = n % b := by simp [valueBE]
    rw [h1, ih]
    have h2 : n % b ^ (w + 1) = n % (b * b ^ w) := by
      rw [pow_succ, Nat.mul_comm]
    rw [h2]
    conv_rhs => rw [show n = b * (n / b) + n % b from (Nat.div_add_mod n b).symm]
    rw [mod_base_mul b (n / b) (n % b) (b ^ w) (Nat.mod_lt _ hb)]
    ring

theorem digitsBE_valueBE (b : Nat) :
    ∀ (ds : List Nat), (∀ d ∈ ds, d < b) → digitsBE b ds.length (valueBE b ds) = ds := by
  intro ds
  induction ds using List.reverseRecOn with
  | nil => intro _; simp [digitsBE, valueBE]
  | append_singleton t d ih =>
    intro h
    have hd : d < b := h d (by simp)
    have hb : 0 < b := by omega
    have ht : ∀ x ∈ t, x < b := fun x hx => h x (by simp [hx])
    have hlen : (t ++ [d]).length = t.length + 1 := by simp
    rw [hlen, valueBE_append]
    simp only [List.length_singleton, pow_one]
    have h1 : valueBE b [d] = d := by simp [valueBE]
    rw [h1, digitsBE]
    have hcomm : valueBE b t * b + d = b * valueBE b t + d := by ring
    have hdiv : (valueBE b t * b + d) / b = valueBE b t := by
      rw [hcomm, Nat.mul_add_div hb, Nat.div_eq_of_lt hd, Nat.add_zero]
    have hmod : (valueBE b t * b + d) % b = d := by
      rw [hcomm, Nat.mul_add_mod, Nat.mod_eq_of_lt hd]
    rw [hdiv, hmod, ih ht]

theorem digitsBE_split (b : Nat) (hb : 0 < b) :
    ∀ (w2 w1 a c : Nat), a < b ^ w1 → c < b ^ w2 →
      digitsBE b (w1 + w2) (a * b ^ w2 + c) = digitsBE b w1 a ++ digitsBE b w2 c := by
  intro w2
  induction w2 with
  | zero =>
    intro w1 a c _ hc
    have hc0 : c = 0 := by simpa using hc
    subst hc0
    simp [digitsBE, valueBE]
  | succ w ih =>
    intro w1 a c ha hc
    have hx : a * b ^ (w + 1) + c = (a * b ^ w) * b + c := by ring
    have hdiv : (a * b ^ (w + 1) + c) / b = a * b ^ w + c / b := by
      rw [hx, show (a * b ^ w) * b + c = b * (a * b ^ w) + c by ring, Nat.mul_add_div hb]
    have hmod : (a * b ^ (w + 1) + c) % b = c % b := by
      rw [hx, show (a * b ^ w) * b + c = b * (a * b ^ w) + c by ring, Nat.mul_add_mod]
    have hcb : c / b < b ^ w := by
      rw [Nat.div_lt_iff_lt_mul hb]
      calc c < b ^ (w + 1) := hc
        _ = b ^ w * b := by ring
    have h1 : w1 + (w + 1) = (w1 + w) + 1 := by omega
    rw [h1, digitsBE, hdiv, hmod, ih w1 a (c / b) ha hcb, digitsBE, List.append_assoc]

/-! ## Byte-wise lexicographic comparison

Rust compares `&[u8]` buffers lexicographically; `lexLt` is that strict
order on byte lists. -/

/-- Strict byte-wise lexicographic comparison of byte lists (the order Rust
uses for `&[u8]`). -/
def lexLt : List Nat → List Nat → Bool
  | _, [] => false
  | [], _ :: _ => true
  | a :: as, c :: cs => if a < c then true else if c < a then false else lexLt as cs

theorem base_pair_lt_iff (B d e v1 v2 : Nat) (h1 : v1 < B) (h2 : v2 < B) :
    d * B + v1 < e * B + v2 ↔ (d < e ∨ (d = e ∧ v1 < v2)) := by
  constructor
  · intro h
    rcases Nat.lt_trichotomy d e with hde | hde | hde
    · exact Or.inl hde
    · exact Or.inr ⟨hde, by subst hde; omega⟩
    · exfalso
      have he1 : e + 1 ≤ d := hde
      have : e * B + v2 < d * B + v1 := by
        calc e * B + v2 < e * B + B := by omega
          _ = (e + 1) * B := by ring
          _ ≤ d * B := Nat.mul_le_mul_right _ he1
          _ ≤ d * B + v1 := by omega
      omega
  · intro h
    rcases h with hde | ⟨hde, hv⟩
    · have hd1 : d + 1 ≤ e := hde
      calc d * B + v1 < d * B + B := by omega
        _ = (d + 1) * B := by ring
        _ ≤ e * B := Nat.mul_le_mul_right _ hd1
        _ ≤ e * B + v2 := by omega
    · subst hde; omega

theorem lexLt_iff_valueBE (b : Nat) :
    ∀ (xs ys : List Nat), xs.length = ys.length →
      (∀ d ∈ xs, d < b) → (∀ d ∈ ys, d < b) →
      (lexLt xs ys = true ↔ valueBE b xs < valueBE b ys) := by
  intro xs
  induction xs with
  | nil =>
    intro ys hlen _ _
    have : ys = [] := List.length_eq_zero.mp (by simpa using hlen.symm)
    subst this
    simp [lexLt, valueBE]
  | cons a as ih =>
    intro ys hlen hxs hys
    match ys with
    | [] => simp at hlen
    | c :: cs =>
      have hlen2 : as.length = cs.length := by simpa using hlen
      have ha : a < b := hxs a (by simp)
      have hc : c < b := hys c (by simp)
      have has : ∀ d ∈ as, d < b := fun d hd => hxs d (by simp [hd])
      have hcs : ∀ d ∈ cs, d < b := fun d hd => hys d (by simp [hd])
      have hva : valueBE b as < b ^ as.length := valueBE_lt b as has
      have hvc : valueBE b cs < b ^ cs.length := valueBE_lt b cs hcs
      rw [hlen2] at hva
      rw [valueBE_cons, valueBE_cons, hlen2]
      rw [base_pair_lt_iff (b ^ cs.length) a c (valueBE b as) (valueBE b cs) hva hvc]
      show (if a < c then true else if c < a then false else lexLt as cs) = true ↔ _
      rcases Nat.lt_trichotomy a c with h | h | h
      · simp [h]
      · subst h
        rw [if_neg (lt_irrefl a), if_neg (lt_irrefl a)]
        rw [ih cs hlen2 has hcs]
        constructor
        · intro hv; exact Or.inr ⟨rfl, hv⟩
        · rintro (hv | ⟨_, hv⟩)
          · exact absurd hv (lt_irrefl a)
          · exact hv
      · rw [if_neg (show ¬ a < c by omega), if_pos h]
        constructor
        · intro hf; simp at hf
        · rintro (hv | ⟨hv, _⟩) <;> omega

/-! ## The BASE32_DNSSEC text encoding

`data_encoding::BASE32_DNSSEC` is unpadded base32hex with the lowercase
alphabet "0123456789abcdefghijklmnopqrstuv"; decoding also accepts the
uppercase letters (the encoding translates them to lowercase first) and
rejects any other byte with a Symbol error, and rejects a final symbol whose
unused trailing bits are nonzero with a Trailing error.  A 16-byte buffer
encodes as 26 symbols: reading the 128 bits most-significant-first in groups
of five, the symbol string is exactly the 26 base-32 digits of the byte
buffer's value shifted left by the two trailing zero bits. -/

/-- The byte encoding a base-32 digit `v`: bytes 48-57 are the digits 0-9,
bytes 97-118 the lowercase letters a-v. -/
def encodeSym (v : Nat) : Nat :=
  if v < 10 then 48 + v else 87 + v

/-- The base-32 digit a byte decodes to: digits, lowercase a-v, or the
uppercase letters A-V which BASE32_DNSSEC translates to lowercase; any other
byte is rejected. -/
def symValue (c : Nat) : Option Nat :=
  if 48 ≤ c ∧ c ≤ 57 then some (c - 48)
  else if 97 ≤ c ∧ c ≤ 118 then some (c - 87)
  else if 65 ≤ c ∧ c ≤ 86 then some (c - 55)
  else none

/-- The base-32 digits of a whole byte list, or `none` as soon as one byte is
not a symbol of the alphabet. -/
def symValues : List Nat → Option (List Nat)
  | [] => some []
  | c :: rest =>
    match symValue c, symValues rest with
    | some v, some vs => some (v :: vs)
    | _, _ => none

/-- Why a base-32 decode fails: a byte outside the alphabet, or nonzero
unused trailing bits in the final symbol (`data_encoding::DecodeKind`). -/
inductive B32Error where
  | symbol
  | trailing
deriving DecidableEq

/-- BASE32_DNSSEC encoding of a 16-byte buffer: the 26 base-32 digits of the
buffer's big-endian value times 4 (the two unused trailing bits are zero),
written with `encodeSym`. -/
def b32Encode (bytes : List Nat) : List Nat :=
  (digitsBE 32 26 (valueBE 256 bytes * 4)).map encodeSym

/-- BASE32_DNSSEC decoding of a 26-symbol input to a 16-byte buffer: every
byte must be an alphabet symbol, the two trailing bits must be zero, and the
bytes are the big-endian base-256 digits of the digit value divided by 4. -/
def b32Decode26 (input : List Nat) : Except B32Error (List Nat) :=
  match symValues input with
  | none => Except.error B32Error.symbol
  | some ds =>
    if valueBE 32 ds % 4 = 0 then Except.ok (digitsBE 256 16 (valueBE 32 ds / 4))
    else Except.error B32Error.trailing

/-! ## The identifier core (src/src/untyped_ids.rs, src/src/ids.rs) -/

/-- Model of `UntypedId`: `stamp` and `random` are u64 values (Nats kept
below `2 ^ 64`). -/
structure UntypedId where
  stamp : Nat
  random : Nat
deriving DecidableEq

/-- Model of `UntypedId::to_bytes`: `stamp.to_be_bytes()` then
`random.to_be_bytes()`, 16 bytes in all. -/
def UntypedId.to_bytes (u : UntypedId) : List Nat :=
  digitsBE 256 8 u.stamp ++ digitsBE 256 8 u.random

/-- Model of `UntypedId::from_bytes`: `stamp` from bytes 0..8, `random` from
bytes 8..16, both big-endian. -/
def UntypedId.from_bytes (bytes : List Nat) : UntypedId :=
  { stamp := valueBE 256 (bytes.take 8)
    random := valueBE 256 ((bytes.drop 8).take 8) }

/-- Model of the parse errors `IdParseError::InvalidPrefix` and
`IdParseError::Unparseable`; `decodeError` stands for the wrapped
`data_encoding` error that `from_str` builds with `format_err!("{:?}", e)`,
which is a different error value from `IdParseError::Unparseable`. -/
inductive IdsError where
  | invalidPrefix
  | unparseable
  | decodeError (k : B32Error)
deriving DecidableEq

/-- A fallible Rust call: `ok`/`error` for `Result`, and `crashed` for a
panic (an assertion failure inside a callee). -/
inductive RustOutcome (ε α : Type) where
  | ok (a : α)
  | error (e : ε)
  | crashed
deriving DecidableEq

/-- Model of `impl Display for UntypedId`: the bare 26-symbol BASE32_DNSSEC
encoding of the 16-byte buffer. -/
def UntypedId.display (u : UntypedId) : List Nat :=
  b32Encode u.to_bytes

/-- Model of `impl FromStr for UntypedId` (ENCODED_BARE_ID_LEN = 26): inputs
whose byte length is not 26 fail with `Unparseable` before decoding; a
decode failure is returned as the wrapped decode error. -/
def UntypedId.from_str (src : List Nat) : Except IdsError UntypedId :=
  if src.length ≠ 26 then Except.error IdsError.unparseable
  else
    match b32Decode26 src with
    | Except.error k => Except.error (IdsError.decodeError k)
    | Except.ok bytes => Except.ok (UntypedId.from_bytes bytes)

/-- Model of `impl Display for Id<T>`: `T::PREFIX`, the divider byte 46
(`"."`), then the bare 26-symbol encoding. -/
def typedDisplay (pfx : List Nat) (u : UntypedId) : List Nat :=
  pfx ++ [46] ++ UntypedId.display u

/-- Model of `impl FromStr for Id<T>`.  The length and prefix checks and the
divider check mirror the source exactly (on byte strings).  The source then
calls `BASE32_DNSSEC.decode_mut(b64, &mut [0u8; 16])`, and `decode_mut`
asserts that the output length 16 equals `decode_len` of the input length,
which holds only for input length 26: for every other body length the call
panics, modelled as `crashed`.  (The byte-level `take`/`drop` does not model
the separate panic `str::split_at` raises when the prefix length falls
inside a multi-byte character; all inputs considered here are ASCII.) -/
def typedFromStr (pfx src : List Nat) : RustOutcome IdsError UntypedId :=
  if src.length < pfx.length + 1 then RustOutcome.error IdsError.invalidPrefix
  else
    let start := src.take pfx.length
    let remainder := src.drop pfx.length
    if start ≠ pfx then RustOutcome.error IdsError.invalidPrefix
    else
      let divider := remainder.take 1
      let b64 := remainder.drop 1
      if divider ≠ [46] then RustOutcome.error IdsError.unparseable
      else if b64.length ≠ 26 then RustOutcome.crashed
      else
        match b32Decode26 b64 with
        | Except.error k => RustOutcome.error (IdsError.decodeError k)
        | Except.ok bytes => RustOutcome.ok (UntypedId.from_bytes bytes)

/-- A structured-data value as a (de)serializer sees it: identifiers always
serialize to a string, anything else is `other`. -/
inductive Data where
  | str (s : List Nat)
  | other
deriving DecidableEq

/-- Why deserialization fails: the parse error, or a non-string input (the
visitor expects a string). -/
inductive DeError where
  | parse (e : IdsError)
  | typeMismatch
deriving DecidableEq

/-- Model of `impl Serialize for UntypedId`: `serialize_str(&self.to_string())`. -/
def UntypedId.serialize (u : UntypedId) : Data :=
  Data.str u.display

/-- Model of `impl Deserialize for UntypedId`: the visitor accepts a string
and parses it with `FromStr`. -/
def UntypedId.deserialize : Data → Except DeError UntypedId
  | Data.str s =>
    match UntypedId.from_str s with
    | Except.ok u => Except.ok u
    | Except.error e => Except.error (DeError.parse e)
  | Data.other => Except.error DeError.typeMismatch

/-- Model of `impl Serialize for Id<T>`: the typed display string. -/
def typedSerialize (pfx : List Nat) (u : UntypedId) : Data :=
  Data.str (typedDisplay pfx u)

/-- Model of `impl Deserialize for Id<T>`: the visitor accepts a string and
parses it with the typed `FromStr` (so it inherits that parser's panic). -/
def typedDeserialize (pfx : List Nat) : Data → RustOutcome DeError UntypedId
  | Data.str s =>
    match typedFromStr pfx s with
    | RustOutcome.ok u => RustOutcome.ok u
    | RustOutcome.error e => RustOutcome.error (DeError.parse e)
    | RustOutcome.crashed => RustOutcome.crashed
  | Data.other => RustOutcome.error DeError.typeMismatch

/-! ## Round-trip lemmas for the text encoding -/

theorem symValue_encodeSym : ∀ v : Nat, v < 32 → symValue (encodeSym v) = some v := by
  decide

theorem symValues_map_encodeSym :
    ∀ (ds : List Nat), (∀ d ∈ ds, d < 32) → symValues (ds.map encodeSym) = some ds := by
  intro ds
  induction ds with
  | nil => intro _; rfl
  | cons d t ih =>
    intro h
    have hd : d < 32 := h d (by simp)
    have ht : symValues (t.map encodeSym) = some t := ih fun x hx => h x (by simp [hx])
    simp only [List.map_cons, symValues, symValue_encodeSym d hd, ht]

theorem length_b32Encode (bytes : List Nat) : (b32Encode bytes).length = 26 := by
  simp [b32Encode, length_digitsBE]

theorem b32_round_trip (bytes : List Nat) (hlen : bytes.length = 16)
    (hmem : ∀ d ∈ bytes, d < 256) :
    b32Decode26 (b32Encode bytes) = Except.ok bytes := by
  have hN : valueBE 256 bytes < 2 ^ 128 := by
    have := valueBE_lt 256 bytes hmem
    rw [hlen] at this
    calc valueBE 256 bytes < 256 ^ 16 := this
      _ = 2 ^ 128 := by norm_num
  have hdigits : ∀ d ∈ digitsBE 32 26 (valueBE 256 bytes * 4), d < 32 :=
    digitsBE_mem_lt 32 (by norm_num) 26 _
  have hsyms : symValues (b32Encode bytes) = some (digitsBE 32 26 (valueBE 256 bytes * 4)) :=
    symValues_map_encodeSym _ hdigits
  have hval : valueBE 32 (digitsBE 32 26 (valueBE 256 bytes * 4)) = valueBE 256 bytes * 4 := by
    rw [valueBE_digitsBE 32 (by norm_num)]
    apply Nat.mod_eq_of_lt
    calc valueBE 256 bytes * 4 < 2 ^ 128 * 4 := by omega
      _ = 32 ^ 26 := by norm_num
  have hback : digitsBE 256 16 (valueBE 256 bytes) = bytes := by
    have := digitsBE_valueBE 256 bytes hmem
    rwa [hlen] at this
  rw [b32Decode26, hsyms]
  simp only [hval, Nat.mul_mod_left, Nat.mul_div_cancel _ (by norm_num : (0:Nat) < 4)]
  rw [if_pos trivial, hback]

theorem to_bytes_length (u : UntypedId) : u.to_bytes.length = 16 := by
  simp [UntypedId.to_bytes, length_digitsBE]

theorem to_bytes_mem_lt (u : UntypedId) : ∀ d ∈ u.to_bytes, d < 256 := by
  intro d hd
  simp only [UntypedId.to_bytes, List.mem_append] at hd
  rcases hd with hd | hd
  · exact digitsBE_mem_lt 256 (by norm_num) 8 _ d hd
  · exact digitsBE_mem_lt 256 (by norm_num) 8 _ d hd

theorem from_bytes_to_bytes (u : UntypedId) (hs : u.stamp < 2 ^ 64)
    (hr : u.random < 2 ^ 64) : UntypedId.from_bytes u.to_bytes = u := by
  have hlen8 : (digitsBE 256 8 u.stamp).length = 8 := length_digitsBE 256 8 _
  have htake : u.to_bytes.take 8 = digitsBE 256 8 u.stamp := by
    rw [UntypedId.to_bytes]
    exact List.take_left' hlen8
  have hdrop : u.to_bytes.drop 8 = digitsBE 256 8 u.random := by
    rw [UntypedId.to_bytes]
    exact List.drop_left' hlen8
  have hdroptake : (u.to_bytes.drop 8).take 8 = digitsBE 256 8 u.random := by
    rw [hdrop, List.take_of_length_le (by rw [length_digitsBE])]
  have hvs : valueBE 256 (digitsBE 256 8 u.stamp) = u.stamp := by
    rw [valueBE_digitsBE 256 (by norm_num)]
    exact Nat.mod_eq_of_lt (by calc u.stamp < 2 ^ 64 := hs
      _ = 256 ^ 8 := by norm_num)
  have hvr : valueBE 256 (digitsBE 256 8 u.random) = u.random := by
    rw [valueBE_digitsBE 256 (by norm_num)]
    exact Nat.mod_eq_of_lt (by calc u.random < 2 ^ 64 := hr
      _ = 256 ^ 8 := by norm_num)
  rw [UntypedId.from_bytes, htake, hdroptake, hvs, hvr]

theorem display_length (u : UntypedId) : u.display.length = 26 :=
  length_b32Encode _

theorem from_str_display (u : UntypedId) (hs : u.stamp < 2 ^ 64)
    (hr : u.random < 2 ^ 64) :
    UntypedId.from_str u.display = Except.ok u := by
  rw [UntypedId.from_str, if_neg (show ¬ u.display.length ≠ 26 from fun h => h (display_length u))]
  rw [UntypedId.display, b32_round_trip u.to_bytes (to_bytes_length u) (to_bytes_mem_lt u)]
  exact congrArg Except.ok (from_bytes_to_bytes u hs hr)

theorem typedFromStr_def (pfx src : List Nat) :
    typedFromStr pfx src =
      if src.length < pfx.length + 1 then RustOutcome.error IdsError.invalidPrefix
      else if src.take pfx.length ≠ pfx then RustOutcome.error IdsError.invalidPrefix
      else if (src.drop pfx.length).take 1 ≠ [46] then RustOutcome.error IdsError.unparseable
      else if ((src.drop pfx.length).drop 1).length ≠ 26 then RustOutcome.crashed
      else
        match b32Decode26 ((src.drop pfx.length).drop 1) with
        | Except.error k => RustOutcome.error (IdsError.decodeError k)
        | Except.ok bytes => RustOutcome.ok (UntypedId.from_bytes bytes) := rfl

theorem typedFromStr_typedDisplay (pfx : List Nat) (u : UntypedId)
    (hs : u.stamp < 2 ^ 64) (hr : u.random < 2 ^ 64) :
    typedFromStr pfx (typedDisplay pfx u) = RustOutcome.ok u := by
  have hlen : (typedDisplay pfx u).length = pfx.length + 1 + 26 := by
    simp [typedDisplay, display_length]
  have htake : (typedDisplay pfx u).take pfx.length = pfx := by
    rw [typedDisplay, List.append_assoc]
    exact List.take_left' rfl
  have hdrop : (typedDisplay pfx u).drop pfx.length = [46] ++ u.display := by
    rw [typedDisplay, List.append_assoc]
    exact List.drop_left' rfl
  have hdivider : ([46] ++ u.display).take 1 = [46] :=
    List.take_left' rfl
  have hbody : ([46] ++ u.display).drop 1 = u.display :=
    List.drop_left' rfl
  rw [typedFromStr_def]
  rw [if_neg (show ¬ (typedDisplay pfx u).length < pfx.length + 1 by omega)]
  rw [htake]
  rw [if_neg (show ¬ pfx ≠ pfx from fun h => h rfl)]
  rw [hdrop, hdivider, hbody]
  rw [if_neg (show ¬ ([46] : List Nat) ≠ [46] from fun h => h rfl)]
  rw [if_neg (show ¬ u.display.length ≠ 26 from fun h => h (display_length u))]
  rw [UntypedId.display, b32_round_trip u.to_bytes (to_bytes_length u) (to_bytes_mem_lt u)]
  exact congrArg RustOutcome.ok (from_bytes_to_bytes u hs hr)

/-! ## SipHash-2-4 (the `siphasher` crate)

`UntypedId::hashed` feeds the input's `Hash` byte stream into
`SipHasher24::new_with_keys(0, 0)` and takes `finish()`.  The model takes
the byte stream directly and computes SipHash-2-4 over it: all state words
are u64 values kept below `2 ^ 64`. -/

/-- Wrapping u64 arithmetic. -/
def wrap64 (x : Nat) : Nat := x % 2 ^ 64

/-- Left rotation of a u64 by `n` bits: the low `64 - n` bits shifted up,
the high `n` bits moved down. -/
def rotl64 (x n : Nat) : Nat :=
  (x % 2 ^ (64 - n)) * 2 ^ n + x / 2 ^ (64 - n)

/-- The four SipHash state words. -/
structure SipState where
  v0 : Nat
  v1 : Nat
  v2 : Nat
  v3 : Nat
deriving DecidableEq

/-- One SipRound of the reference algorithm. -/
def sipRound (s : SipState) : SipState :=
  let a0 := wrap64 (s.v0 + s.v1)
  let a1 := rotl64 s.v1 13
  let b1 := a1 ^^^ a0
  let b0 := rotl64 a0 32
  let a2 := wrap64 (s.v2 + s.v3)
  let a3 := rotl64 s.v3 16
  let b3 := a3 ^^^ a2
  let c0 := wrap64 (b0 + b3)
  let c3 := rotl64 b3 21
  let d3 := c3 ^^^ c0
  let c2 := wrap64 (a2 + b1)
  let c1 := rotl64 b1 17
  let d1 := c1 ^^^ c2
  let d2 := rotl64 c2 32
  ⟨c0, d1, d2, d3⟩

/-- Model of `SipHasher24::new_with_keys`: the keys xored into the four
initialization constants. -/
def SipHasher24.new_with_keys (k0 k1 : Nat) : SipState :=
  ⟨k0 ^^^ 0x736f6d6570736575, k1 ^^^ 0x646f72616e646f6d,
   k0 ^^^ 0x6c7967656e657261, k1 ^^^ 0x7465646279746573⟩

/-- One message word absorbed: `v3 ^= m`, two SipRounds, `v0 ^= m`. -/
def sipCompress (s : SipState) (m : Nat) : SipState :=
  let s1 : SipState := ⟨s.v0, s.v1, s.v2, s.v3 ^^^ m⟩
  let s2 := sipRound (sipRound s1)
  ⟨s2.v0 ^^^ m, s2.v1, s2.v2, s2.v3⟩

/-- Finalization: absorb the final word, xor 0xff into `v2`, four SipRounds,
and xor the four state words together. -/
def sipFinish (s : SipState) (b : Nat) : Nat :=
  let s1 := sipCompress s b
  let s2 : SipState := ⟨s1.v0, s1.v1, s1.v2 ^^^ 0xff, s1.v3⟩
  let s3 := sipRound (sipRound (sipRound (sipRound s2)))
  s3.v0 ^^^ s3.v1 ^^^ s3.v2 ^^^ s3.v3

/-- A full little-endian 8-byte message word (each byte masked to u8). -/
def leWord8 (b0 b1 b2 b3 b4 b5 b6 b7 : Nat) : Nat :=
  b0 % 256 + (b1 % 256) * 2 ^ 8 + (b2 % 256) * 2 ^ 16 + (b3 % 256) * 2 ^ 24
    + (b4 % 256) * 2 ^ 32 + (b5 % 256) * 2 ^ 40 + (b6 % 256) * 2 ^ 48
    + (b7 % 256) * 2 ^ 56

/-- The little-endian value of the trailing bytes (fewer than 8 of them). -/
def leTail (bs : List Nat) : Nat :=
  bs.foldr (fun b acc => acc * 256 + b % 256) 0

/-- The full 8-byte words of the byte stream, and the trailing bytes. -/
def splitWords : List Nat → List Nat × List Nat
  | b0 :: b1 :: b2 :: b3 :: b4 :: b5 :: b6 :: b7 :: rest =>
    let p := splitWords rest
    (leWord8 b0 b1 b2 b3 b4 b5 b6 b7 :: p.1, p.2)
  | rest => ([], rest)

/-- SipHash-2-4 with the fixed all-zero key over a byte stream: absorb every
full word, then the final word `(len % 256) << 56 | trailing bytes`.  The
trailing bytes are fewer than 8, so their value is below `2 ^ 56`; the
explicit `% 2 ^ 56` only records that bound. -/
def sipHash24 (m : List Nat) : Nat :=
  let p := splitWords m
  let s := p.1.foldl sipCompress (SipHasher24.new_with_keys 0 0)
  sipFinish s ((m.length % 256) * 2 ^ 56 + leTail p.2 % 2 ^ 56)

/-- Model of `UntypedId::hashed`: stamp 0, random the keyed 64-bit hash of
the input's byte stream. -/
def UntypedId.hashed (m : List Nat) : UntypedId :=
  { stamp := 0, random := sipHash24 m }

/-! ### The hash output is a u64 -/

theorem wrap64_lt (x : Nat) : wrap64 x < 2 ^ 64 :=
  Nat.mod_lt _ (by norm_num)

theorem rotl64_lt (x n : Nat) (hx : x < 2 ^ 64) (hn : n ≤ 64) :
    rotl64 x n < 2 ^ 64 := by
  have h1 : x % 2 ^ (64 - n) < 2 ^ (64 - n) := Nat.mod_lt _ (Nat.pos_pow_of_pos _ (by norm_num))
  have h2 : x / 2 ^ (64 - n) < 2 ^ n := by
    rw [Nat.div_lt_iff_lt_mul (Nat.pos_pow_of_pos _ (by norm_num))]
    calc x < 2 ^ 64 := hx
      _ = 2 ^ n * 2 ^ (64 - n) := by rw [← pow_add]; congr 1; omega
  have h3 : x % 2 ^ (64 - n) + 1 ≤ 2 ^ (64 - n) := h1
  calc (x % 2 ^ (64 - n)) * 2 ^ n + x / 2 ^ (64 - n)
      < (x % 2 ^ (64 - n)) * 2 ^ n + 2 ^ n := by omega
    _ = (x % 2 ^ (64 - n) + 1) * 2 ^ n := by ring
    _ ≤ 2 ^ (64 - n) * 2 ^ n := Nat.mul_le_mul_right _ h3
    _ = 2 ^ 64 := by rw [← pow_add]; congr 1; omega

theorem xor64_lt (x y : Nat) (hx : x < 2 ^ 64) (hy : y < 2 ^ 64) :
    x ^^^ y < 2 ^ 64 :=
  Nat.xor_lt_two_pow hx hy

/-- All four state words are u64 values. -/
def SipState.Bounded (s : SipState) : Prop :=
  s.v0 < 2 ^ 64 ∧ s.v1 < 2 ^ 64 ∧ s.v2 < 2 ^ 64 ∧ s.v3 < 2 ^ 64

theorem sipRound_bounded (s : SipState) (h : s.Bounded) : (sipRound s).Bounded := by
  obtain ⟨h0, h1, h2, h3⟩ := h
  have hb1 : rotl64 s.v1 13 ^^^ wrap64 (s.v0 + s.v1) < 2 ^ 64 :=
    xor64_lt _ _ (rotl64_lt _ _ h1 (by norm_num)) (wrap64_lt _)
  have hb3 : rotl64 s.v3 16 ^^^ wrap64 (s.v2 + s.v3) < 2 ^ 64 :=
    xor64_lt _ _ (rotl64_lt _ _ h3 (by norm_num)) (wrap64_lt _)
  exact ⟨wrap64_lt _,
    xor64_lt _ _ (rotl64_lt _ _ hb1 (by norm_num)) (wrap64_lt _),
    rotl64_lt _ _ (wrap64_lt _) (by norm_num),
    xor64_lt _ _ (rotl64_lt _ _ hb3 (by norm_num)) (wrap64_lt _)⟩

theorem sipCompress_bounded (s : SipState) (m : Nat) (h : s.Bounded)
    (hm : m < 2 ^ 64) : (sipCompress s m).Bounded := by
  obtain ⟨h0, h1, h2, h3⟩ := h
  have hs1 : SipState.Bounded ⟨s.v0, s.v1, s.v2, s.v3 ^^^ m⟩ :=
    ⟨h0, h1, h2, xor64_lt _ _ h3 hm⟩
  have hs2 := sipRound_bounded _ (sipRound_bounded _ hs1)
  obtain ⟨g0, g1, g2, g3⟩ := hs2
  exact ⟨xor64_lt _ _ g0 hm, g1, g2, g3⟩

theorem sipFinish_lt (s : SipState) (b : Nat) (h : s.Bounded) (hb : b < 2 ^ 64) :
    sipFinish s b < 2 ^ 64 := by
  have h1 := sipCompress_bounded s b h hb
  obtain ⟨g0, g1, g2, g3⟩ := h1
  have h2 : SipState.Bounded
      ⟨(sipCompress s b).v0, (sipCompress s b).v1, (sipCompress s b).v2 ^^^ 0xff,
        (sipCompress s b).v3⟩ :=
    ⟨g0, g1, xor64_lt _ _ g2 (by norm_num), g3⟩
  have h3 := sipRound_bounded _ (sipRound_bounded _ (sipRound_bounded _ (sipRound_bounded _ h2)))
  obtain ⟨f0, f1, f2, f3⟩ := h3
  exact xor64_lt _ _ (xor64_lt _ _ (xor64_lt _ _ f0 f1) f2) f3

theorem leWord8_lt (b0 b1 b2 b3 b4 b5 b6 b7 : Nat) :
    leWord8 b0 b1 b2 b3 b4 b5 b6 b7 < 2 ^ 64 := by
  have hm : ∀ a : Nat, a % 256 ≤ 255 := fun a => by
    have := Nat.mod_lt a (show 0 < 256 by norm_num); omega
  have e0 := hm b0
  have e1 := hm b1
  have e2 := hm b2
  have e3 := hm b3
  have e4 := hm b4
  have e5 := hm b5
  have e6 := hm b6
  have e7 := hm b7
  simp only [leWord8]
  norm_num
  omega

theorem splitWords_words_lt (m : List Nat) : ∀ w ∈ (splitWords m).1, w < 2 ^ 64 := by
  induction m using splitWords.induct with
  | case1 b0 b1 b2 b3 b4 b5 b6 b7 rest ih =>
    intro w hw
    rw [splitWords.eq_1] at hw
    simp only [List.mem_cons] at hw
    rcases hw with hw | hw
    · subst hw; exact leWord8_lt b0 b1 b2 b3 b4 b5 b6 b7
    · exact ih w hw
  | case2 rest h =>
    intro w hw
    rw [splitWords.eq_2 rest h] at hw
    simp at hw

theorem foldl_sipCompress_bounded (ws : List Nat) :
    ∀ (s : SipState), s.Bounded → (∀ w ∈ ws, w < 2 ^ 64) →
      (ws.foldl sipCompress s).Bounded := by
  induction ws with
  | nil => intro s hs _; exact hs
  | cons w t ih =>
    intro s hs hws
    have hw : w < 2 ^ 64 := hws w (by simp)
    exact ih _ (sipCompress_bounded s w hs hw) fun x hx => hws x (by simp [hx])

theorem initState_bounded : (SipHasher24.new_with_keys 0 0).Bounded := by
  refine ⟨?_, ?_, ?_, ?_⟩ <;> decide

theorem sipHash24_lt (m : List Nat) : sipHash24 m < 2 ^ 64 := by
  have hfold := foldl_sipCompress_bounded (splitWords m).1 _ initState_bounded
    (splitWords_words_lt m)
  apply sipFinish_lt _ _ hfold
  have hlen : m.length % 256 ≤ 255 := by
    have := Nat.mod_lt m.length (show 0 < 256 by norm_num); omega
  have htl : leTail (splitWords m).2 % 2 ^ 56 < 2 ^ 56 :=
    Nat.mod_lt _ (by norm_num)
  norm_num at htl ⊢
  omega

/-! ## Document metadata and mailbox (src/infra/src/documents.rs) -/

/-- Model of `DocMeta<T>`: the identifier and the version counter.  The
`Version` newtype wraps a u64; its value is a Nat kept below `2 ^ 64`, and
`Version::default()` is 0. -/
structure DocMeta where
  id : UntypedId
  version : Nat
deriving DecidableEq

/-- Model of `DocMeta::new_with_id`: the given id with the default
version 0. -/
def DocMeta.new_with_id (id : UntypedId) : DocMeta :=
  { id := id, version := 0 }

/-- Model of `DocMeta::increment_version`: `self.version.0 += 1`, an
unchecked u64 addition.  In a release build the addition wraps modulo
`2 ^ 64` (in a debug build it panics at the same point), hence the explicit
modulus. -/
def DocMeta.increment_version (m : DocMeta) : DocMeta :=
  { m with version := (m.version + 1) % 2 ^ 64 }

/-- Model of `MailBox<A>`: the `outgoing` field is a `HashSet`, modelled as
a finite set. -/
structure MailBox (A : Type) [DecidableEq A] where
  outgoing : Finset A

/-- Model of `MailBox::empty`. -/
def MailBox.empty (A : Type) [DecidableEq A] : MailBox A :=
  { outgoing := ∅ }

/-- Model of `MailBox::send`: `self.outgoing.insert(msg)`. -/
def MailBox.send {A : Type} [DecidableEq A] (m : MailBox A) (msg : A) : MailBox A :=
  { outgoing := insert msg m.outgoing }

/-! ## The document store engine (src/infra/src/persistence.rs)

A document is its metadata plus an entity-specific body; `β` stands for the
entity-specific fields.  The `documents` table keys each row by the
serialized id string (`body ->> '_id'`, which serde writes as the typed
display string), so the store is an association list from that key to the
stored document; a schema where `id` is the unique row key is what
INSERT_SQL's NOT EXISTS guard maintains.  `pfx` is the document type's
`Entity::PREFIX`. -/

/-- A persisted document: metadata envelope plus entity-specific body. -/
structure Doc (β : Type) where
  meta : DocMeta
  body : β
deriving DecidableEq

/-- The rows of the `documents` table: serialized id string, stored body. -/
abbrev Store (β : Type) : Type := List (List Nat × Doc β)

/-- The serialized `_id` key of a document: the typed display string of its
identifier. -/
def docKey (pfx : List Nat) {β : Type} (d : Doc β) : List Nat :=
  typedDisplay pfx d.meta.id

/-- `SELECT body FROM documents WHERE id = key`: the first row with the
key. -/
def lookupRow {β : Type} : Store β → List Nat → Option (Doc β)
  | [], _ => none
  | row :: rest, k => if row.1 = k then some row.2 else lookupRow rest k

/-- Model of INSERT_SQL: insert the row keyed by the document's `_id`
unless a row with that id already exists; returns the new table and the
affected-row count. -/
def insertRow {β : Type} (store : Store β) (k : List Nat) (d : Doc β) :
    Store β × Nat :=
  match lookupRow store k with
  | some _ => (store, 0)
  | none => (store ++ [(k, d)], 1)

/-- Model of UPDATE_SQL: replace the body of every row whose id equals the
document's `_id` and whose stored `_version` equals the expected version;
returns the new table and the affected-row count. -/
def updateRows {β : Type} (k : List Nat) (ver : Nat) (d : Doc β) :
    Store β → Store β × Nat
  | [] => ([], 0)
  | row :: rest =>
    let p := updateRows k ver d rest
    if row.1 = k ∧ row.2.meta.version = ver then ((k, d) :: p.1, p.2 + 1)
    else (row :: p.1, p.2)

/-- Model of `ConcurrencyError` (the save affected zero rows). -/
inductive SaveError where
  | concurrencyError
deriving DecidableEq

/-- A Rust `Result`. -/
inductive RustResult (ε α : Type) where
  | ok (a : α)
  | error (e : ε)
deriving DecidableEq

/-- Model of `Documents::save`.  Inside one transaction: read the current
in-memory version, increment the document's version in place, then insert
(when the pre-increment version is `Version::default()`, i.e. 0) or
conditionally update (otherwise).  If zero rows were affected the
transaction is dropped without commit — the table keeps its old state — and
the call fails with `ConcurrencyError`; otherwise the transaction commits.
Returns the mutated in-memory document, the table after the call, and the
call's result. -/
def Documents.save {β : Type} (pfx : List Nat) (store : Store β)
    (document : Doc β) : Doc β × Store β × RustResult SaveError Unit :=
  let current_version := document.meta.version
  let document2 : Doc β := { document with meta := document.meta.increment_version }
  let p :=
    if current_version = 0 then insertRow store (docKey pfx document2) document2
    else updateRows (docKey pfx document2) current_version document2 store
  if p.2 = 0 then (document2, store, RustResult.error SaveError.concurrencyError)
  else (document2, p.1, RustResult.ok ())

/-- Model of `Documents::load`: the body stored under the identifier's
string form, or `None` when absent. -/
def Documents.load {β : Type} (pfx : List Nat) (store : Store β)
    (id : UntypedId) : Option (Doc β) :=
  lookupRow store (typedDisplay pfx id)

/-! ### Lemmas about the store operations -/

theorem updateRows_count_zero {β : Type} (k : List Nat) (ver : Nat) (d : Doc β) :
    ∀ (store : Store β),
      (updateRows k ver d store).2 = 0 ↔
        ∀ row ∈ store, ¬(row.1 = k ∧ row.2.meta.version = ver) := by
  intro store
  induction store with
  | nil => simp [updateRows]
  | cons row rest ih =>
    by_cases hc : row.1 = k ∧ row.2.meta.version = ver
    · simp only [updateRows, if_pos hc]
      constructor
      · intro h; omega
      · intro h
        exact absurd hc (h row (by simp))
    · simp only [updateRows, if_neg hc]
      rw [ih]
      constructor
      · intro h row2 hrow2
        rcases List.mem_cons.mp hrow2 with he | he
        · subst he; exact hc
        · exact h row2 he
      · intro h row2 hrow2
        exact h row2 (List.mem_cons_of_mem _ hrow2)

theorem updateRows_lookup_match {β : Type} (k : List Nat) (ver : Nat) (d : Doc β) :
    ∀ (store : Store β), (store.map Prod.fst).Nodup →
      (∃ row ∈ store, row.1 = k ∧ row.2.meta.version = ver) →
      lookupRow (updateRows k ver d store).1 k = some d := by
  intro store
  induction store with
  | nil => intro _ h; simp at h
  | cons row rest ih =>
    intro hnodup hex
    have hnd : row.1 ∉ rest.map Prod.fst ∧ (rest.map Prod.fst).Nodup := by
      rw [List.map_cons, List.nodup_cons] at hnodup
      exact hnodup
    by_cases hc : row.1 = k ∧ row.2.meta.version = ver
    · simp only [updateRows, if_pos hc]
      simp [lookupRow]
    · simp only [updateRows, if_neg hc]
      by_cases hk : row.1 = k
      · exfalso
        rcases hex with ⟨row2, hmem, hk2, hv2⟩
        rcases List.mem_cons.mp hmem with he | he
        · exact hc (he ▸ ⟨hk2, hv2⟩)
        · have : row2.1 ∈ rest.map Prod.fst := List.mem_map_of_mem _ he
          rw [hk2, ← hk] at this
          exact hnd.1 this
      · show lookupRow (row :: (updateRows k ver d rest).1) k = some d
        rw [lookupRow, if_neg hk]
        apply ih hnd.2
        rcases hex with ⟨row2, hmem, hk2, hv2⟩
        rcases List.mem_cons.mp hmem with he | he
        · exact absurd (he ▸ hk2) hk
        · exact ⟨row2, he, hk2, hv2⟩

theorem updateRows_lookup_other {β : Type} (k : List Nat) (ver : Nat) (d : Doc β) :
    ∀ (store : Store β) (k2 : List Nat), k2 ≠ k →
      lookupRow (updateRows k ver d store).1 k2 = lookupRow store k2 := by
  intro store
  induction store with
  | nil => intro k2 _; simp [updateRows]
  | cons row rest ih =>
    intro k2 hk2
    by_cases hc : row.1 = k ∧ row.2.meta.version = ver
    · simp only [updateRows, if_pos hc]
      show lookupRow ((k, d) :: (updateRows k ver d rest).1) k2 = _
      rw [lookupRow, if_neg (fun h => hk2 h.symm), ih k2 hk2, lookupRow,
        if_neg (fun h => hk2 (by rw [← h, hc.1]))]
    · simp only [updateRows, if_neg hc]
      show lookupRow (row :: (updateRows k ver d rest).1) k2 = _
      rw [lookupRow, lookupRow, ih k2 hk2]

theorem lookupRow_append_new {β : Type} (k : List Nat) (d : Doc β) :
    ∀ (store : Store β), lookupRow store k = none →
      lookupRow (store ++ [(k, d)]) k = some d := by
  intro store
  induction store with
  | nil => intro _; simp [lookupRow]
  | cons row rest ih =>
    intro h
    rw [lookupRow] at h
    by_cases hk : row.1 = k
    · rw [if_pos hk] at h; cases h
    · rw [if_neg hk] at h
      show lookupRow (row :: (rest ++ [(k, d)])) k = some d
      rw [lookupRow, if_neg hk]
      exact ih h

theorem lookupRow_append_other {β : Type} (k k2 : List Nat) (d : Doc β) (hne : k2 ≠ k) :
    ∀ (store : Store β), lookupRow (store ++ [(k, d)]) k2 = lookupRow store k2 := by
  intro store
  induction store with
  | nil => simp [lookupRow, if_neg (fun h : k = k2 => hne h.symm)]
  | cons row rest ih =>
    show lookupRow (row :: (rest ++ [(k, d)])) k2 = _
    rw [lookupRow, lookupRow, ih]

theorem save_doc_eq {β : Type} (pfx : List Nat) (store : Store β) (d : Doc β) :
    (Documents.save pfx store d).1 = { d with meta := d.meta.increment_version } := by
  simp only [Documents.save]
  split <;> split <;> rfl

theorem docKey_increment {β : Type} (pfx : List Nat) (d : Doc β) :
    docKey pfx { d with meta := d.meta.increment_version } = docKey pfx d := rfl

theorem save_insert_absent {β : Type} (pfx : List Nat) (store : Store β) (d : Doc β)
    (hv : d.meta.version = 0) (hlk : lookupRow store (docKey pfx d) = none) :
    Documents.save pfx store d
      = ({ d with meta := d.meta.increment_version },
          store ++ [(docKey pfx d, { d with meta := d.meta.increment_version })],
          RustResult.ok ()) := by
  simp only [Documents.save, if_pos hv, docKey_increment, insertRow, hlk]
  rw [if_neg (show ¬ (1 : Nat) = 0 by omega)]

theorem save_insert_present {β : Type} (pfx : List Nat) (store : Store β) (d : Doc β)
    (d0 : Doc β) (hv : d.meta.version = 0)
    (hlk : lookupRow store (docKey pfx d) = some d0) :
    Documents.save pfx store d
      = ({ d with meta := d.meta.increment_version }, store,
          RustResult.error SaveError.concurrencyError) := by
  simp only [Documents.save, if_pos hv, docKey_increment, insertRow, hlk]
  rw [if_pos trivial]

theorem save_update_zero {β : Type} (pfx : List Nat) (store : Store β) (d : Doc β)
    (hv : d.meta.version ≠ 0)
    (hz : (updateRows (docKey pfx d) d.meta.version
        { d with meta := d.meta.increment_version } store).2 = 0) :
    Documents.save pfx store d
      = ({ d with meta := d.meta.increment_version }, store,
          RustResult.error SaveError.concurrencyError) := by
  simp only [Documents.save, if_neg hv, docKey_increment, hz]
  rw [if_pos trivial]

theorem save_update_some {β : Type} (pfx : List Nat) (store : Store β) (d : Doc β)
    (hv : d.meta.version ≠ 0)
    (hz : (updateRows (docKey pfx d) d.meta.version
        { d with meta := d.meta.increment_version } store).2 ≠ 0) :
    Documents.save pfx store d
      = ({ d with meta := d.meta.increment_version },
          (updateRows (docKey pfx d) d.meta.version
            { d with meta := d.meta.increment_version } store).1,
          RustResult.ok ()) := by
  simp only [Documents.save, if_neg hv, docKey_increment, if_neg hz]

/-! ## Claim theorems -/

/-- C1: For every save of a document whose pre-increment in-memory version
is nonzero, the engine attempts a conditional update that replaces the
stored row keyed by the document's identifier and succeeds iff the stored
`_version` equals the pre-increment version; if zero rows are affected the
call fails with a ConcurrencyError and the transaction is not committed,
leaving the stored state unchanged (atomicity on error).  The key-uniqueness
hypothesis is the table's primary-key invariant, which INSERT_SQL's
NOT EXISTS guard maintains. -/
theorem save_conditional_update {β : Type} (pfx : List Nat) (store : Store β)
    (d : Doc β) (hv : d.meta.version ≠ 0) (hkeys : (store.map Prod.fst).Nodup) :
    ((Documents.save pfx store d).2.2 = RustResult.ok () ↔
      ∃ row ∈ store, row.1 = docKey pfx d ∧ row.2.meta.version = d.meta.version)
    ∧ ((Documents.save pfx store d).2.2 ≠ RustResult.ok () →
        (Documents.save pfx store d).2.2 = RustResult.error SaveError.concurrencyError
        ∧ (Documents.save pfx store d).2.1 = store)
    ∧ ((Documents.save pfx store d).2.2 = RustResult.ok () →
        lookupRow (Documents.save pfx store d).2.1 (docKey pfx d)
            = some (Documents.save pfx store d).1
        ∧ ∀ k2, k2 ≠ docKey pfx d →
            lookupRow (Documents.save pfx store d).2.1 k2 = lookupRow store k2) := by
  by_cases hz : (updateRows (docKey pfx d) d.meta.version
      { d with meta := d.meta.increment_version } store).2 = 0
  · rw [save_update_zero pfx store d hv hz]
    have hnone := (updateRows_count_zero _ _ _ store).mp hz
    refine ⟨⟨fun h => by simp at h, ?_⟩, fun _ => ⟨rfl, rfl⟩, fun h => by simp at h⟩
    rintro ⟨row, hmem, hk, hver⟩
    exact absurd ⟨hk, hver⟩ (hnone row hmem)
  · rw [save_update_some pfx store d hv hz]
    have hex : ∃ row ∈ store, row.1 = docKey pfx d
        ∧ row.2.meta.version = d.meta.version := by
      by_contra hno
      push_neg at hno
      exact hz ((updateRows_count_zero _ _ _ store).mpr fun row hmem hand =>
        absurd hand.2 (hno row hmem hand.1))
    refine ⟨⟨fun _ => hex, fun _ => rfl⟩, fun h => absurd rfl h, fun _ => ⟨?_, ?_⟩⟩
    · exact updateRows_lookup_match _ _ _ store hkeys hex
    · intro k2 hk2
      exact updateRows_lookup_other _ _ _ store k2 hk2

/-! ### Concrete instances for the witnesses and counterexamples -/

/-- The byte string "canary", the test entity's PREFIX. -/
def pfx0 : List Nat := [99, 97, 110, 97, 114, 121]

/-- A concrete identifier. -/
def idZero : UntypedId := { stamp := 0, random := 0 }

/-- A concrete already-saved document (version 1). -/
def doc1 : Doc Nat := { meta := { id := idZero, version := 1 }, body := 5 }

/-- A table holding exactly `doc1` under its key. -/
def store1 : Store Nat := [(docKey pfx0 doc1, doc1)]

/-- C1 witness: the conditional-update contract at a concrete store and
document whose stored version matches. -/
theorem save_conditional_update_witness :
    ((Documents.save pfx0 store1 doc1).2.2 = RustResult.ok () ↔
      ∃ row ∈ store1, row.1 = docKey pfx0 doc1 ∧ row.2.meta.version = doc1.meta.version)
    ∧ ((Documents.save pfx0 store1 doc1).2.2 ≠ RustResult.ok () →
        (Documents.save pfx0 store1 doc1).2.2 = RustResult.error SaveError.concurrencyError
        ∧ (Documents.save pfx0 store1 doc1).2.1 = store1)
    ∧ ((Documents.save pfx0 store1 doc1).2.2 = RustResult.ok () →
        lookupRow (Documents.save pfx0 store1 doc1).2.1 (docKey pfx0 doc1)
            = some (Documents.save pfx0 store1 doc1).1
        ∧ ∀ k2, k2 ≠ docKey pfx0 doc1 →
            lookupRow (Documents.save pfx0 store1 doc1).2.1 k2 = lookupRow store1 k2) :=
  save_conditional_update pfx0 store1 doc1 (by decide) (by decide)

/-- C3 (amended): every call to save mutates the caller's in-memory document
in place, setting its version to `(v + 1) % 2 ^ 64` — which is exactly
`v + 1` whenever `v + 1 < 2 ^ 64` — and the caller observes this whether the
save succeeds or fails; no other field (id, body) is modified.  (At
`v = 2 ^ 64 - 1` the unchecked u64 addition wraps, so "by exactly 1" fails
there; see the counterexample.) -/
theorem save_version_bump_amended {β : Type} (pfx : List Nat) (store : Store β)
    (d : Doc β) :
    (Documents.save pfx store d).1.meta.version = (d.meta.version + 1) % 2 ^ 64
    ∧ (d.meta.version + 1 < 2 ^ 64 →
        (Documents.save pfx store d).1.meta.version = d.meta.version + 1)
    ∧ (Documents.save pfx store d).1.meta.id = d.meta.id
    ∧ (Documents.save pfx store d).1.body = d.body := by
  rw [save_doc_eq pfx store d]
  refine ⟨rfl, fun h => ?_, rfl, rfl⟩
  show (d.meta.version + 1) % 2 ^ 64 = d.meta.version + 1
  exact Nat.mod_eq_of_lt h

/-- A concrete document at the largest u64 version. -/
def docMax : Doc Nat := { meta := { id := idZero, version := 2 ^ 64 - 1 }, body := 5 }

/-- C3 counterexample: saving a document whose in-memory version is
`2 ^ 64 - 1` leaves the version at 0, not at the pre-increment version plus
one — the increment is not "by exactly 1" at the u64 boundary. -/
theorem save_version_wraps_at_max :
    (Documents.save pfx0 ([] : Store Nat) docMax).1.meta.version = 0
    ∧ (Documents.save pfx0 ([] : Store Nat) docMax).1.meta.version
        ≠ docMax.meta.version + 1 := by
  constructor
  · rw [save_doc_eq]
    show (docMax.meta.version + 1) % 2 ^ 64 = 0
    norm_num [docMax]
  · rw [save_doc_eq]
    show (docMax.meta.version + 1) % 2 ^ 64 ≠ docMax.meta.version + 1
    norm_num [docMax]

/-- C10: version increment is an unchecked u64 addition: for every version
below `2 ^ 64 - 1` it yields `v + 1`, at `2 ^ 64 - 1` the addition wraps to
0 modulo `2 ^ 64` (release-build semantics; a debug build panics at the same
point), and the version bump performed by every save is total only modulo
`2 ^ 64`. -/
theorem increment_version_unchecked (id0 : UntypedId) (v : Nat)
    (h : v < 2 ^ 64 - 1) :
    (DocMeta.increment_version { id := id0, version := v }).version = v + 1
    ∧ (DocMeta.increment_version { id := id0, version := 2 ^ 64 - 1 }).version = 0
    ∧ ∀ (β : Type) (pfx : List Nat) (store : Store β) (d : Doc β),
        (Documents.save pfx store d).1.meta.version = (d.meta.version + 1) % 2 ^ 64 := by
  refine ⟨?_, ?_, ?_⟩
  · show (v + 1) % 2 ^ 64 = v + 1
    apply Nat.mod_eq_of_lt
    have h64 : (2 : Nat) ^ 64 = 18446744073709551616 := by norm_num
    omega
  · show (2 ^ 64 - 1 + 1) % 2 ^ 64 = 0
    norm_num
  · intro β pfx store d
    rw [save_doc_eq]
    rfl

/-- C10 witness: the increment at version 5. -/
theorem increment_version_unchecked_witness :
    (DocMeta.increment_version { id := idZero, version := 5 }).version = 5 + 1
    ∧ (DocMeta.increment_version { id := idZero, version := 2 ^ 64 - 1 }).version = 0
    ∧ ∀ (β : Type) (pfx : List Nat) (store : Store β) (d : Doc β),
        (Documents.save pfx store d).1.meta.version = (d.meta.version + 1) % 2 ^ 64 :=
  increment_version_unchecked idZero 5 (by norm_num)

/-- A sequence of save attempts: the in-memory document threaded through
`Documents.save` against the given store states (failed attempts mutate the
document too; only the returned document is kept here). -/
def saveFold {β : Type} (pfx : List Nat) (stores : List (Store β)) (d : Doc β) : Doc β :=
  stores.foldl (fun doc s => (Documents.save pfx s doc).1) d

theorem saveFold_version {β : Type} (pfx : List Nat) :
    ∀ (stores : List (Store β)) (d : Doc β), d.meta.version < 2 ^ 64 →
      (saveFold pfx stores d).meta.version
        = (d.meta.version + stores.length) % 2 ^ 64 := by
  intro stores
  induction stores with
  | nil =>
    intro d hd
    show d.meta.version = (d.meta.version + 0) % 2 ^ 64
    rw [Nat.add_zero, Nat.mod_eq_of_lt hd]
  | cons s ss ih =>
    intro d hd
    have hstep : saveFold pfx (s :: ss) d = saveFold pfx ss (Documents.save pfx s d).1 := rfl
    have hver : (Documents.save pfx s d).1.meta.version = (d.meta.version + 1) % 2 ^ 64 := by
      rw [save_doc_eq]; rfl
    rw [hstep, ih _ (by rw [hver]; exact Nat.mod_lt _ (by norm_num)), hver,
      Nat.mod_add_mod]
    congr 1
    simp [List.length_cons]
    omega

/-- C2 (amended): a document created with `DocMeta::new_with_id` has
version 0; starting from a fresh document, the in-memory version after a
sequence of save attempts equals the number of attempts modulo `2 ^ 64`
(failed attempts bump the version too), so — for fewer than `2 ^ 64`
attempts — version 0 holds iff no save was ever attempted.  Saving a
document with version 0 performs an insert-if-absent: zero rows are
affected when a row with that id already exists, which fails the save with
ConcurrencyError and leaves the table unchanged; after the first successful
save the document has version 1 and a subsequent load by its id returns an
equal document. -/
theorem save_new_document_amended {β : Type} (pfx : List Nat) (id0 : UntypedId)
    (b0 : β) (stores : List (Store β)) (store : Store β) (d : Doc β)
    (hv : d.meta.version = 0) :
    (DocMeta.new_with_id id0).version = 0
    ∧ (saveFold pfx stores { meta := DocMeta.new_with_id id0, body := b0 }).meta.version
        = stores.length % 2 ^ 64
    ∧ (stores.length < 2 ^ 64 →
        ((saveFold pfx stores
            { meta := DocMeta.new_with_id id0, body := b0 }).meta.version = 0
          ↔ stores = []))
    ∧ ((Documents.save pfx store d).2.2 = RustResult.ok ()
        ↔ lookupRow store (docKey pfx d) = none)
    ∧ (lookupRow store (docKey pfx d) ≠ none →
        (Documents.save pfx store d).2.2 = RustResult.error SaveError.concurrencyError
        ∧ (Documents.save pfx store d).2.1 = store)
    ∧ ((Documents.save pfx store d).2.2 = RustResult.ok () →
        (Documents.save pfx store d).1.meta.version = 1
        ∧ Documents.load pfx (Documents.save pfx store d).2.1 d.meta.id
            = some (Documents.save pfx store d).1) := by
  have hfold : (saveFold pfx stores
      { meta := DocMeta.new_with_id id0, body := b0 }).meta.version
      = stores.length % 2 ^ 64 := by
    have := saveFold_version pfx stores { meta := DocMeta.new_with_id id0, body := b0 }
      (show (0 : Nat) < 2 ^ 64 by norm_num)
    rw [show ({ meta := DocMeta.new_with_id id0, body := b0 } : Doc β).meta.version = 0
      from rfl, Nat.zero_add] at this
    exact this
  have hbound : stores.length < 2 ^ 64 →
      ((saveFold pfx stores
          { meta := DocMeta.new_with_id id0, body := b0 }).meta.version = 0
        ↔ stores = []) := by
    intro hn
    rw [hfold, Nat.mod_eq_of_lt hn]
    exact ⟨fun h => List.length_eq_zero.mp h, fun h => by rw [h]; rfl⟩
  by_cases hlk : lookupRow store (docKey pfx d) = none
  · rw [save_insert_absent pfx store d hv hlk]
    refine ⟨rfl, hfold, hbound, ⟨fun _ => hlk, fun _ => rfl⟩,
      fun hne => absurd hlk hne, fun _ => ⟨?_, ?_⟩⟩
    · show (d.meta.version + 1) % 2 ^ 64 = 1
      rw [hv]
      norm_num
    · show lookupRow (store ++ [(docKey pfx d,
          { d with meta := d.meta.increment_version })]) (docKey pfx d)
        = some { d with meta := d.meta.increment_version }
      exact lookupRow_append_new _ _ store hlk
  · obtain ⟨d0, hd0⟩ : ∃ d0, lookupRow store (docKey pfx d) = some d0 := by
      cases hx : lookupRow store (docKey pfx d) with
      | none => exact absurd hx hlk
      | some d0 => exact ⟨d0, rfl⟩
    rw [save_insert_present pfx store d d0 hv hd0]
    exact ⟨rfl, hfold, hbound,
      ⟨fun h => by simp at h, fun h => absurd h (by rw [hd0]; simp)⟩,
      fun _ => ⟨rfl, rfl⟩, fun h => by simp at h⟩

/-- A concrete fresh document (version 0). -/
def docA : Doc Nat := { meta := DocMeta.new_with_id idZero, body := 0 }

/-- A table that already holds a row under `docA`'s key. -/
def storeA : Store Nat := [(docKey pfx0 docA, doc1)]

/-- C2 counterexample: a freshly created document whose only save attempt
failed (insert hit an existing row, ConcurrencyError, nothing committed) has
in-memory version 1, not 0 — so "version 0 iff never successfully saved" is
false as stated: the bump happens on failed saves too. -/
theorem version_nonzero_without_successful_save :
    (Documents.save pfx0 storeA docA).2.2 = RustResult.error SaveError.concurrencyError
    ∧ (Documents.save pfx0 storeA docA).2.1 = storeA
    ∧ (Documents.save pfx0 storeA docA).1.meta.version = 1
    ∧ docA.meta.version = 0 := by
  decide

/-- C2 witness: the amended contract at a fresh document against the empty
table, with no prior attempts. -/
theorem save_new_document_witness :
    (DocMeta.new_with_id idZero).version = 0
    ∧ (saveFold pfx0 [] { meta := DocMeta.new_with_id idZero, body := (0 : Nat) }).meta.version
        = ([] : List (Store Nat)).length % 2 ^ 64
    ∧ (([] : List (Store Nat)).length < 2 ^ 64 →
        ((saveFold pfx0 []
            { meta := DocMeta.new_with_id idZero, body := (0 : Nat) }).meta.version = 0
          ↔ ([] : List (Store Nat)) = []))
    ∧ ((Documents.save pfx0 ([] : Store Nat) docA).2.2 = RustResult.ok ()
        ↔ lookupRow ([] : Store Nat) (docKey pfx0 docA) = none)
    ∧ (lookupRow ([] : Store Nat) (docKey pfx0 docA) ≠ none →
        (Documents.save pfx0 ([] : Store Nat) docA).2.2
            = RustResult.error SaveError.concurrencyError
        ∧ (Documents.save pfx0 ([] : Store Nat) docA).2.1 = ([] : Store Nat))
    ∧ ((Documents.save pfx0 ([] : Store Nat) docA).2.2 = RustResult.ok () →
        (Documents.save pfx0 ([] : Store Nat) docA).1.meta.version = 1
        ∧ Documents.load pfx0 (Documents.save pfx0 ([] : Store Nat) docA).2.1 docA.meta.id
            = some (Documents.save pfx0 ([] : Store Nat) docA).1) :=
  save_new_document_amended pfx0 idZero 0 [] [] docA rfl

/-- C4: for every identifier — generated (any pair of u64 components) or
hashed — parsing its display string returns an identifier equal to it, in
both the typed and the untyped form, and the same round trip holds through
structured-data (de)serialization. -/
theorem id_round_trip (st rd : Nat) (hs : st < 2 ^ 64) (hr : rd < 2 ^ 64)
    (pfx m : List Nat) :
    UntypedId.from_str (UntypedId.display { stamp := st, random := rd })
        = Except.ok { stamp := st, random := rd }
    ∧ typedFromStr pfx (typedDisplay pfx { stamp := st, random := rd })
        = RustOutcome.ok { stamp := st, random := rd }
    ∧ UntypedId.deserialize (UntypedId.serialize { stamp := st, random := rd })
        = Except.ok { stamp := st, random := rd }
    ∧ typedDeserialize pfx (typedSerialize pfx { stamp := st, random := rd })
        = RustOutcome.ok { stamp := st, random := rd }
    ∧ UntypedId.from_str (UntypedId.display (UntypedId.hashed m))
        = Except.ok (UntypedId.hashed m) := by
  have h1 := from_str_display { stamp := st, random := rd } hs hr
  have h2 := typedFromStr_typedDisplay pfx { stamp := st, random := rd } hs hr
  refine ⟨h1, h2, ?_, ?_, ?_⟩
  · show UntypedId.deserialize
        (Data.str (UntypedId.display { stamp := st, random := rd })) = _
    rw [UntypedId.deserialize, h1]
  · show typedDeserialize pfx
        (Data.str (typedDisplay pfx { stamp := st, random := rd })) = _
    rw [typedDeserialize, h2]
  · exact from_str_display (UntypedId.hashed m)
      (by show (0 : Nat) < 2 ^ 64; norm_num) (sipHash24_lt m)

/-- C4 witness: the round trip at the identifier (1, 2) with prefix
"canary" and at the hash of an empty stream. -/
theorem id_round_trip_witness :
    UntypedId.from_str (UntypedId.display { stamp := 1, random := 2 })
        = Except.ok { stamp := 1, random := 2 }
    ∧ typedFromStr pfx0 (typedDisplay pfx0 { stamp := 1, random := 2 })
        = RustOutcome.ok { stamp := 1, random := 2 }
    ∧ UntypedId.deserialize (UntypedId.serialize { stamp := 1, random := 2 })
        = Except.ok { stamp := 1, random := 2 }
    ∧ typedDeserialize pfx0 (typedSerialize pfx0 { stamp := 1, random := 2 })
        = RustOutcome.ok { stamp := 1, random := 2 }
    ∧ UntypedId.from_str (UntypedId.display (UntypedId.hashed []))
        = Except.ok (UntypedId.hashed []) :=
  id_round_trip 1 2 (by norm_num) (by norm_num) pfx0 []

/-- The typed string "canary." followed by a 25-character body (one symbol
short of the 26 the encoding needs). -/
def truncatedTypedInput : List Nat := pfx0 ++ [46] ++ List.replicate 25 48

/-- C5 evaluation at the failing input: typed parsing of a well-prefixed
string whose body has 25 characters does not return an error — it reaches
`decode_mut` with a body length for which `decode_len` is not 16, and the
assertion inside `decode_mut` panics.  The spec promises an `Unparseable`
error result and never a crash. -/
theorem typed_parse_crashes_on_wrong_length_body :
    typedFromStr pfx0 truncatedTypedInput = RustOutcome.crashed := by
  decide

/-- Any input containing the divider byte cannot parse as an untyped id:
a wrong-length input fails the length check, and at length 26 the divider
is outside the base-32 alphabet, so decoding fails with a Symbol error. -/
theorem symValues_divider_none :
    ∀ (s : List Nat), 46 ∈ s → symValues s = none := by
  intro s
  induction s with
  | nil => intro h; simp at h
  | cons c rest ih =>
    intro h
    rcases List.mem_cons.mp h with hc | hc
    · subst hc
      rfl
    · rw [symValues, ih hc]
      cases symValue c <;> rfl

theorem from_str_divider_not_ok (s : List Nat) (h46 : 46 ∈ s) (i : UntypedId) :
    UntypedId.from_str s ≠ Except.ok i := by
  rw [UntypedId.from_str]
  by_cases hl : s.length = 26
  · rw [if_neg (show ¬ s.length ≠ 26 from fun h => h hl)]
    rw [b32Decode26, symValues_divider_none s h46]
    intro h
    cases h
  · rw [if_pos hl]
    intro h
    cases h

/-- C6 (amended): untyped parsing fails with `Unparseable` exactly when the
input's length is not 26 — when the length is 26 but base-32 decoding
fails, the error is the wrapped decode error, not the `Unparseable`
variant — and every input containing the divider byte is rejected, so the
typed display string of any identifier never parses as an untyped
identifier. -/
theorem untyped_parse_rejection_amended (s pfx2 : List Nat) (u2 : UntypedId) :
    (UntypedId.from_str s = Except.error IdsError.unparseable ↔ s.length ≠ 26)
    ∧ (46 ∈ s → ∀ i : UntypedId, UntypedId.from_str s ≠ Except.ok i)
    ∧ (∀ i : UntypedId,
        UntypedId.from_str (typedDisplay pfx2 u2) ≠ Except.ok i) := by
  refine ⟨?_, fun h46 i => from_str_divider_not_ok s h46 i, fun i => ?_⟩
  · rw [UntypedId.from_str]
    by_cases hl : s.length = 26
    · rw [if_neg (show ¬ s.length ≠ 26 from fun h => h hl)]
      constructor
      · intro h
        cases hdec : b32Decode26 s with
        | error k => rw [hdec] at h; cases h
        | ok bytes => rw [hdec] at h; cases h
      · intro h
        exact absurd hl h
    · rw [if_pos hl]
      exact ⟨fun _ => hl, fun _ => rfl⟩
  · apply from_str_divider_not_ok
    rw [typedDisplay]
    simp

deriving instance DecidableEq for Except

/-- Twenty-six divider bytes. -/
def dots26 : List Nat := List.replicate 26 46

/-- C6 counterexample: a 26-character input made of divider bytes fails
base-32 decoding, and the error returned is the wrapped Symbol decode
error, not `IdParseError::Unparseable` as the claim states. -/
theorem untyped_decode_error_not_unparseable :
    UntypedId.from_str dots26 = Except.error (IdsError.decodeError B32Error.symbol)
    ∧ UntypedId.from_str dots26 ≠ Except.error IdsError.unparseable := by
  decide

/-- Model of the derived `Ord` on `UntypedId` (fields compared in
declaration order, `stamp` then `random`): strict lexicographic order on
the pair. -/
def UntypedId.ltPair (x y : UntypedId) : Prop :=
  x.stamp < y.stamp ∨ (x.stamp = y.stamp ∧ x.random < y.random)

theorem valueBE_to_bytes (x : UntypedId) (hxs : x.stamp < 2 ^ 64)
    (hxr : x.random < 2 ^ 64) :
    valueBE 256 x.to_bytes = x.stamp * 2 ^ 64 + x.random := by
  have h2 : (256 : Nat) ^ 8 = 2 ^ 64 := by norm_num
  rw [UntypedId.to_bytes, valueBE_append, length_digitsBE,
    valueBE_digitsBE 256 (by norm_num), valueBE_digitsBE 256 (by norm_num), h2,
    Nat.mod_eq_of_lt hxs, Nat.mod_eq_of_lt hxr]

/-- C7: the binary encoding of an identifier is its stamp then its random
component, each as 8 big-endian bytes (16 bytes in all, and decoding them
recovers the identifier), and byte-wise lexicographic comparison of two
encodings agrees exactly with the lexicographic order on (stamp, random)
pairs — encoded order equals chronological order with random tie-break. -/
theorem to_bytes_order_iff (x y : UntypedId) (hxs : x.stamp < 2 ^ 64)
    (hxr : x.random < 2 ^ 64) (hys : y.stamp < 2 ^ 64) (hyr : y.random < 2 ^ 64) :
    x.to_bytes = digitsBE 256 8 x.stamp ++ digitsBE 256 8 x.random
    ∧ x.to_bytes.length = 16
    ∧ UntypedId.from_bytes x.to_bytes = x
    ∧ (lexLt x.to_bytes y.to_bytes = true ↔ UntypedId.ltPair x y) := by
  refine ⟨rfl, to_bytes_length x, from_bytes_to_bytes x hxs hxr, ?_⟩
  rw [lexLt_iff_valueBE 256 x.to_bytes y.to_bytes
    (by rw [to_bytes_length, to_bytes_length]) (to_bytes_mem_lt x) (to_bytes_mem_lt y)]
  rw [valueBE_to_bytes x hxs hxr, valueBE_to_bytes y hys hyr]
  exact base_pair_lt_iff (2 ^ 64) x.stamp y.stamp x.random y.random hxr hyr

/-- C7 witness: the order agreement at (0, 1) and (1, 0). -/
theorem to_bytes_order_iff_witness :
    ({ stamp := 0, random := 1 } : UntypedId).to_bytes
        = digitsBE 256 8 0 ++ digitsBE 256 8 1
    ∧ ({ stamp := 0, random := 1 } : UntypedId).to_bytes.length = 16
    ∧ UntypedId.from_bytes ({ stamp := 0, random := 1 } : UntypedId).to_bytes
        = { stamp := 0, random := 1 }
    ∧ (lexLt ({ stamp := 0, random := 1 } : UntypedId).to_bytes
          ({ stamp := 1, random := 0 } : UntypedId).to_bytes = true
        ↔ UntypedId.ltPair { stamp := 0, random := 1 } { stamp := 1, random := 0 }) :=
  to_bytes_order_iff { stamp := 0, random := 1 } { stamp := 1, random := 0 }
    (by norm_num) (by norm_num) (by norm_num) (by norm_num)

/-- C8 (amended): `hashed` sets stamp = 0 and derives random as the 64-bit
keyed hash (SipHash-2-4) with the fixed all-zero key, so equal inputs yield
equal identifiers, and two hashed identifiers are equal exactly when their
hashes agree; distinct inputs are not guaranteed distinct identifiers (a
64-bit hash has collisions; see the counterexample), though none is
observed on small corpora. -/
theorem hashed_deterministic_amended (x y : List Nat) (hxy : x = y) :
    (UntypedId.hashed x).stamp = 0
    ∧ (UntypedId.hashed x).random = sipHash24 x
    ∧ UntypedId.hashed x = UntypedId.hashed y
    ∧ (UntypedId.hashed x = UntypedId.hashed y ↔ sipHash24 x = sipHash24 y) := by
  subst hxy
  exact ⟨rfl, rfl, rfl, by simp⟩

/-- C8 witness: determinism at the byte stream of "Hi!". -/
theorem hashed_deterministic_witness :
    (UntypedId.hashed [72, 105, 33]).stamp = 0
    ∧ (UntypedId.hashed [72, 105, 33]).random = sipHash24 [72, 105, 33]
    ∧ UntypedId.hashed [72, 105, 33] = UntypedId.hashed [72, 105, 33]
    ∧ (UntypedId.hashed [72, 105, 33] = UntypedId.hashed [72, 105, 33]
        ↔ sipHash24 [72, 105, 33] = sipHash24 [72, 105, 33]) :=
  hashed_deterministic_amended [72, 105, 33] [72, 105, 33] rfl

/-- C8 counterexample: `hashed` is not injective — there exist two distinct
inputs with equal hashed identifiers, because the 9-byte streams
(`256 ^ 9` of them) cannot map injectively into the `2 ^ 64` possible
64-bit hash values. -/
theorem hashed_not_injective :
    ¬ ∀ (x y : List Nat), x ≠ y → UntypedId.hashed x ≠ UntypedId.hashed y := by
  intro h
  have hinj : Function.Injective
      (fun v : Fin 9 → Fin 256 =>
        (⟨(UntypedId.hashed ((List.ofFn v).map Fin.val)).random,
          sipHash24_lt _⟩ : Fin (2 ^ 64))) := by
    intro v w hvw
    by_contra hne
    have hlists : (List.ofFn v).map Fin.val ≠ (List.ofFn w).map Fin.val := by
      intro heq
      exact hne (List.ofFn_injective (List.map_injective_iff.mpr Fin.val_injective heq))
    apply h _ _ hlists
    have hrand : (UntypedId.hashed ((List.ofFn v).map Fin.val)).random
        = (UntypedId.hashed ((List.ofFn w).map Fin.val)).random :=
      congrArg Fin.val hvw
    show UntypedId.hashed ((List.ofFn v).map Fin.val)
        = UntypedId.hashed ((List.ofFn w).map Fin.val)
    rw [show UntypedId.hashed ((List.ofFn v).map Fin.val)
        = { stamp := 0, random := sipHash24 ((List.ofFn v).map Fin.val) } from rfl,
      show UntypedId.hashed ((List.ofFn w).map Fin.val)
        = { stamp := 0, random := sipHash24 ((List.ofFn w).map Fin.val) } from rfl]
    exact congrArg (fun r => UntypedId.mk 0 r) hrand
  have hcard := Fintype.card_le_of_injective _ hinj
  rw [Fintype.card_fun, Fintype.card_fin, Fintype.card_fin, Fintype.card_fin] at hcard
  norm_num at hcard

/-- C9: mailbox insertion is idempotent (sending the same message twice
leaves the outgoing set as after sending it once; from the empty mailbox
the outgoing set has size 1), and sending never removes or alters other
pending messages (membership after a send is membership before, plus the
sent message). -/
theorem mailbox_send_idempotent (A : Type) [inst : DecidableEq A]
    (m : MailBox A) (msg a : A) :
    MailBox.send (MailBox.send m msg) msg = MailBox.send m msg
    ∧ (MailBox.send (MailBox.empty A) msg).outgoing.card = 1
    ∧ (a ∈ (MailBox.send m msg).outgoing ↔ a = msg ∨ a ∈ m.outgoing) := by
  refine ⟨?_, ?_, ?_⟩
  · show (⟨insert msg (insert msg m.outgoing)⟩ : MailBox A) = ⟨insert msg m.outgoing⟩
    rw [Finset.insert_idem]
  · show (insert msg (∅ : Finset A)).card = 1
    simp
  · show a ∈ insert msg m.outgoing ↔ a = msg ∨ a ∈ m.outgoing
    exact Finset.mem_insert
